import Mathlib

set_option maxRecDepth 8192

/-!
Shallow embedding of src/poc_char.c (repository poc-unrandom): the
xorshift128+ generator (spl_rand_next, spl_rand_jump), the byte-fill
service (random_get_pseudo_bytes), the bulk read path (poc_read) and the
seeding logic of spl_random_init.

Machine integers are Nat with an explicit % 2 ^ 64 at every point where
the C code performs 64-bit wraparound (left shifts and additions on
uint64_t, the size_t subtraction inside P2ROUNDUP).  Memory byte order is
a Bool parameter be (false = little-endian host, true = big-endian host),
used exactly where the C code depends on object representation: the union
overlay entropy.byte in random_get_pseudo_bytes, the raw uint64_t store
into the scratch buffer in poc_read, and the memcpy of the literal seed
string in spl_random_init.
-/

/-- One xorshift128+ step, from spl_rand_next (poc_char.c lines 42-51):
given the state pair (s[0], s[1]) it returns the new state pair together
with the 64-bit return value s[1] + s0. -/
def spl_rand_next (s : Nat × Nat) : (Nat × Nat) × Nat :=
  let s1 := s.1
  let s0 := s.2
  let s1b := s1 ^^^ ((s1 <<< 23) % 2 ^ 64)
  let n1 := s1b ^^^ s0 ^^^ (s1b >>> 18) ^^^ (s0 >>> 5)
  ((s0, n1), (n1 + s0) % 2 ^ 64)

/-- The state transition of spl_rand_next, with the returned 64-bit output
discarded (the callers that only advance the state use this view). -/
def nextState (s : Nat × Nat) : Nat × Nat := (spl_rand_next s).1

/-- The two-word jump polynomial constant JUMP of spl_rand_jump. -/
def JUMP : List Nat := [0x8a5cd789635d2dff, 0x121fd2155c472f96]

/-- The body of the inner loop of spl_rand_jump for the JUMP word jw at
bit index b, acting on the pair (accumulator pair, current state): if bit
b of jw is set the current state is xor-accumulated into (s0, s1), and
the state is always advanced by one spl_rand_next call. -/
def jstep (jw : Nat) (q : (Nat × Nat) × (Nat × Nat)) (b : Nat) : (Nat × Nat) × (Nat × Nat) :=
  (if jw &&& (1 <<< b) ≠ 0 then (q.1.1 ^^^ q.2.1, q.1.2 ^^^ q.2.2) else q.1,
    nextState q.2)

/-- The jump-ahead function, from spl_rand_jump (poc_char.c lines 53-73):
for every word of JUMP in order and every bit b in 0..63, run jstep; the
accumulators, initially zero, become the new state. -/
def spl_rand_jump (s : Nat × Nat) : Nat × Nat :=
  (JUMP.foldl (fun (p : (Nat × Nat) × (Nat × Nat)) (jw : Nat) =>
    (List.range 64).foldl (jstep jw) p) ((0, 0), s)).1

/-- The j-th memory byte (j = 0 is the lowest address) of a 64-bit value
stored in a uint64_t object: this is what the union overlay entropy.byte[j]
in random_get_pseudo_bytes and the raw word store in poc_read read and
write.  On a little-endian host (be = false) byte j is the j-th least
significant byte; on a big-endian host (be = true) it is the j-th most
significant byte. -/
def byteAt (be : Bool) (w j : Nat) : Nat :=
  if be then (w >>> (8 * (7 - j))) % 256 else (w >>> (8 * j)) % 256

/-- The while (len) loop of random_get_pseudo_bytes (poc_char.c lines
85-97): each iteration draws one 64-bit output, takes i = MIN(len, 8) and
emits entropy.byte[i-1], ..., entropy.byte[0] to the destination.  Returns
the emitted byte list and the final state written back at lines 99-100. -/
def rgpb_fill (be : Bool) (s : Nat × Nat) (len : Nat) : List Nat × (Nat × Nat) :=
  if len = 0 then ([], s)
  else
    let i := min len 8
    let r := spl_rand_next s
    let chunk := ((List.range i).reverse).map (fun j => byteAt be r.2 j)
    let rest := rgpb_fill be r.1 (len - i)
    (chunk ++ rest.1, rest.2)
termination_by len
decreasing_by omega

/-- random_get_pseudo_bytes (poc_char.c lines 75-105): fills len bytes
from the calling unit state and returns 0 (the only return statement in
the function). -/
def random_get_pseudo_bytes (be : Bool) (s : Nat × Nat) (len : Nat) :
    (List Nat × (Nat × Nat)) × Int :=
  (rgpb_fill be s len, 0)

/-- Number of iterations of the generation loop in poc_read
(for (i = 0; i < len; i += 8)): one per started 8-byte word. -/
def numWords (len : Nat) : Nat := (len + 7) / 8

/-- The 8 memory bytes written by the raw store
*(uint64_t *)(buf + i) = spl_rand_next(xp) in poc_read (line 126). -/
def storeBytes (be : Bool) (w : Nat) : List Nat := (List.range 8).map (byteAt be w)

/-- The sequence of 64-bit outputs drawn by the generation loop of
poc_read, together with the final per-unit state. -/
def poc_scratch_words (s : Nat × Nat) : Nat → List Nat × (Nat × Nat)
  | 0 => ([], s)
  | n + 1 =>
    let r := spl_rand_next s
    let rest := poc_scratch_words r.1 n
    (r.2 :: rest.1, rest.2)

/-- The scratch buffer contents produced by the generation loop of
poc_read (lines 125-127): numWords len raw word stores. -/
def poc_read_scratch (be : Bool) (s : Nat × Nat) (len : Nat) : List Nat :=
  ((poc_scratch_words s (numWords len)).1.map (storeBytes be)).flatten

/-- The first len bytes of the scratch buffer: the portion poc_read is
meant to deliver to the client buffer. -/
def poc_read_delivered (be : Bool) (s : Nat × Nat) (len : Nat) : List Nat :=
  (poc_read_scratch be s len).take len

/-- The P2ROUNDUP macro (poc_char.c line 31) on size_t arithmetic:
(((x - 1) | (align - 1)) + 1) with 64-bit wraparound, so that x = 0 wraps
to 2 ^ 64 - 1 before the bitwise or and the final + 1 wraps back to 0. -/
def P2ROUNDUP (x align : Nat) : Nat :=
  ((((x + (2 ^ 64 - 1)) % 2 ^ 64) ||| (align - 1)) + 1) % 2 ^ 64

/-- State (copied, left) of the copy loop of poc_read (lines 131-134)
after k executed iterations, given an oracle where oracle k n is the
number of bytes the k-th copy_to_user call leaves uncopied when asked to
copy n bytes.  Each iteration executes
left = copy_to_user(buffer + copied, buf + copied, len); copied = len - left
and the loop runs while left is nonzero. -/
def poc_copy_state (oracle : Nat → Nat → Nat) (len : Nat) : Nat → Nat × Nat
  | 0 => (0, len)
  | k + 1 =>
    let p := poc_copy_state oracle len k
    if p.2 = 0 then p else (len - oracle k len, oracle k len)

/-- The (offset, count) arguments of the k-th copy_to_user attempt in the
copy loop of poc_read: both the user-buffer offset and the scratch offset
are copied, and the requested byte count is the full len on every attempt. -/
def poc_copy_attempt (oracle : Nat → Nat → Nat) (len k : Nat) : Nat × Nat :=
  ((poc_copy_state oracle len k).1, len)

/-- The per-cpu seeding loop of spl_random_init (poc_char.c lines
189-196): a single running state s is jumped once per unit, in unit
order, and the jumped state is stored into the slot of that unit. -/
def seedList : Nat → (Nat × Nat) → List (Nat × Nat)
  | 0, _ => []
  | n + 1, s =>
    let s2 := spl_rand_jump s
    s2 :: seedList n s2

/-- The 16 bytes of the C string literal "improbable seed" (15 characters
plus the terminating NUL) that spl_random_init copies over s on the
double-zero fallback path (line 181). -/
def improbableBytes : List Nat :=
  [0x69, 0x6d, 0x70, 0x72, 0x6f, 0x62, 0x61, 0x62,
   0x6c, 0x65, 0x20, 0x73, 0x65, 0x65, 0x64, 0x00]

/-- Value of a uint64_t object whose 8 memory bytes are bs, on a host
with byte order be (inverse of byteAt). -/
def loadWord (be : Bool) (bs : List Nat) : Nat :=
  (List.range 8).foldl
    (fun acc j => acc + bs.getD j 0 * 2 ^ (8 * (if be then 7 - j else j))) 0

/-- The fixed literal fallback seed: the two uint64_t words obtained by
memcpy of "improbable seed" into s (line 181), on a host with byte order
be. -/
def improbableSeed (be : Bool) : Nat × Nat :=
  (loadWord be (improbableBytes.take 8), loadWord be (improbableBytes.drop 8))

/-- The root-seed selection of spl_random_init (poc_char.c lines 174-187):
e is the 128-bit value returned by get_random_bytes, jiff the value of
jiffies.  If both entropy words are zero, fall back to
(jiffies, ~0 - jiffies) when jiffies is nonzero, else to the literal
seed. -/
def spl_random_init_seed (be : Bool) (e : Nat × Nat) (jiff : Nat) : Nat × Nat :=
  if e.1 = 0 ∧ e.2 = 0 then
    if jiff ≠ 0 then (jiff, 2 ^ 64 - 1 - jiff) else improbableSeed be
  else e

/-- Reverse every 8-byte group of a byte list (the last group may be
shorter).  Relates the two serialization orders used by poc_read and
random_get_pseudo_bytes. -/
def revChunks (l : List Nat) : List Nat :=
  if l = [] then [] else (l.take 8).reverse ++ revChunks (l.drop 8)
termination_by l.length
decreasing_by
  have : 0 < l.length := List.length_pos.mpr (by assumption)
  simp only [List.length_drop]
  omega

/-- Modelled from the spec: the big-endian serialization of one 64-bit
output word, most significant byte first (spec section 4.4). -/
def bytesBE (w : Nat) : List Nat :=
  [w / 256 ^ 7 % 256, w / 256 ^ 6 % 256, w / 256 ^ 5 % 256, w / 256 ^ 4 % 256,
   w / 256 ^ 3 % 256, w / 256 ^ 2 % 256, w / 256 % 256, w % 256]

/-- Modelled from the spec (claim C3): fill consumes each 64-bit
Transition output most-significant-byte-first, and for the final output
word, when length is not a multiple of 8, uses only as many of its
trailing (least-significant) bytes as needed. -/
def specFillBE (s : Nat × Nat) (len : Nat) : List Nat :=
  if len = 0 then []
  else
    let r := spl_rand_next s
    if 8 ≤ len then bytesBE r.2 ++ specFillBE r.1 (len - 8)
    else (bytesBE r.2).drop (8 - len)
termination_by len
decreasing_by omega

/-!
Infrastructure for claim C9 (spl_rand_jump realizes 2 ^ 64 transition
steps).  The xorshift128+ transition T is linear over GF(2) on the
128-bit state, so any xor-accumulation of T-iterates is evaluation of a
GF(2) polynomial in T.  The jump loop evaluates the polynomial whose
coefficient mask is the 128-bit JUMP constant.  CHARPOLY below is the
(minimal = characteristic, since it has full degree 128) polynomial of T:
that it annihilates T is checked on the 128 basis vectors by computation
and extended to all states by linearity.  Squaring the polynomial x
sixty-four times modulo CHARPOLY then shows that the JUMP polynomial is
x ^ (2 ^ 64) modulo CHARPOLY, hence that the jump equals 2 ^ 64
transition steps.  States are encoded as single naturals below 2 ^ 128;
polynomials over GF(2) are naturals whose bit k is the coefficient of
x ^ k. -/

/-- Encode a state pair as a 128-bit natural: s[0] in the low 64 bits,
s[1] in the high 64 bits. -/
def enc (s : Nat × Nat) : Nat := s.1 + s.2 * 2 ^ 64

/-- Decode a 128-bit natural into a state pair. -/
def dec (v : Nat) : Nat × Nat := (v % 2 ^ 64, v / 2 ^ 64)

/-- Componentwise xor on state pairs. -/
def pxor (p q : Nat × Nat) : Nat × Nat := (p.1 ^^^ q.1, p.2 ^^^ q.2)

/-- The xorshift128+ state transition on encoded 128-bit states. -/
def T128 (v : Nat) : Nat := enc (nextState (dec v))

/-- Evaluate the GF(2) polynomial with coefficient mask p at the map
T128, applied to the vector v: the xor of the iterates of T128 applied
to v over the set bits of p. -/
def polyApplyVec (p v : Nat) : Nat :=
  if p = 0 then 0
  else (if p % 2 = 1 then v else 0) ^^^ polyApplyVec (p / 2) (T128 v)
termination_by p
decreasing_by omega

/-- Fuel-driven evaluator for polyApplyVec, structurally recursive so
that the kernel can run it inside decide; agrees with polyApplyVec
whenever p has fewer than fuel bits. -/
def polyApplyVecAux : Nat → Nat → Nat → Nat
  | 0, _, _ => 0
  | f + 1, p, v =>
    if p = 0 then 0
    else (if p % 2 = 1 then v else 0) ^^^ polyApplyVecAux f (p / 2) (T128 v)

/-- Square a GF(2) polynomial given as a coefficient mask of fewer than
fuel bits: spread its bits two positions apart (over GF(2), squaring is
the Frobenius map). -/
def spread : Nat → Nat → Nat
  | 0, _ => 0
  | f + 1, q => if q = 0 then 0 else q % 2 + 4 * spread f (q / 2)

/-- Reduce the polynomial q modulo the degree-128 polynomial p: for each
shift t from high to low, xor in p shifted by t whenever the degree of q
is 128 + t.  If q has degree below 128 + fuel on entry, the result has
degree below 128. -/
def polyReduce (p : Nat) : Nat → Nat → Nat
  | 0, q => q
  | t + 1, q => polyReduce p t (if 2 ^ (128 + t) ≤ q then q ^^^ (p <<< t) else q)

/-- Force a natural number to a numeral before passing it on: the match
makes kernel evaluation of natForce n f reduce n to a literal first,
keeping the evaluation depth of iterated constructions bounded. -/
def natForce (n : Nat) (f : Nat → Nat) : Nat :=
  match n with
  | 0 => f 0
  | q + 1 => f (q + 1)

/-- Iterated squaring modulo p: polySquares p k r is r to the power
2 ^ k modulo p, for r of degree below 128. -/
def polySquares (p : Nat) : Nat → Nat → Nat
  | 0, r => r
  | k + 1, r => natForce (polyReduce p 128 (spread 128 r)) (fun m => polySquares p k m)

/-- The characteristic polynomial of the xorshift128+ transition over
GF(2) (degree 128; computed externally and certified below by checking
that it annihilates T128 on all 128 basis vectors). -/
def CHARPOLY : Nat := 0x12844c5d42caf7db0024f06fae9e61daf

/-- The 128-bit jump polynomial: the two JUMP words as one coefficient
mask (low word first, matching the loop order of spl_rand_jump). -/
def JUMPPOLY : Nat := 0x121fd2155c472f968a5cd789635d2dff

/-! ### Generic lemmas on Nat bit operations -/

theorem xor_mod_two_pow (x y n : Nat) :
    (x ^^^ y) % 2 ^ n = x % 2 ^ n ^^^ y % 2 ^ n := by
  apply Nat.eq_of_testBit_eq
  intro i
  simp only [Nat.testBit_mod_two_pow, Nat.testBit_xor]
  by_cases h : i < n <;> simp [h]

theorem xor_div_two_pow (x y n : Nat) :
    (x ^^^ y) / 2 ^ n = x / 2 ^ n ^^^ y / 2 ^ n := by
  rw [← Nat.shiftRight_eq_div_pow, ← Nat.shiftRight_eq_div_pow,
    ← Nat.shiftRight_eq_div_pow]
  apply Nat.eq_of_testBit_eq
  intro i
  simp [Nat.testBit_shiftRight, Nat.testBit_xor]

theorem xor_shiftLeft (x y n : Nat) :
    (x ^^^ y) <<< n = x <<< n ^^^ y <<< n := by
  apply Nat.eq_of_testBit_eq
  intro i
  simp only [Nat.testBit_shiftLeft, Nat.testBit_xor]
  by_cases h : i ≥ n <;> simp [h]

theorem xor_shiftRight (x y n : Nat) :
    (x ^^^ y) >>> n = x >>> n ^^^ y >>> n := by
  simp only [Nat.shiftRight_eq_div_pow]
  exact xor_div_two_pow x y n

theorem xor_left_comm (x y z : Nat) : x ^^^ (y ^^^ z) = y ^^^ (x ^^^ z) := by
  rw [← Nat.xor_assoc, Nat.xor_comm x y, Nat.xor_assoc]

theorem xor_decomp (x y : Nat) :
    x ^^^ y = 2 * (x / 2 ^^^ y / 2) + (x % 2 ^^^ y % 2) := by
  have h1 : (x ^^^ y) / 2 = x / 2 ^^^ y / 2 := by
    have := xor_div_two_pow x y 1
    simpa using this
  have h2 : (x ^^^ y) % 2 = x % 2 ^^^ y % 2 := by
    have := xor_mod_two_pow x y 1
    simpa using this
  omega

theorem two_pow_add_eq_xor (k : Nat) :
    ∀ m : Nat, m < 2 ^ k → 2 ^ k + m = 2 ^ k ^^^ m := by
  induction k with
  | zero =>
    intro m hm
    interval_cases m
    decide
  | succ k ih =>
    intro m hm
    have hd : 2 ^ (k + 1) = 2 * 2 ^ k := by ring
    have h2 := xor_decomp (2 ^ (k + 1)) m
    have e1 : 2 ^ (k + 1) / 2 = 2 ^ k := by omega
    have e2 : 2 ^ (k + 1) % 2 = 0 := by omega
    rw [e1, e2, Nat.zero_xor] at h2
    have hm2 : m / 2 < 2 ^ k := by omega
    rw [h2, ← ih (m / 2) hm2]
    omega

theorem xor_top_cancel (d x y : Nat) (hx1 : 2 ^ d ≤ x) (hx2 : x < 2 ^ (d + 1))
    (hy1 : 2 ^ d ≤ y) (hy2 : y < 2 ^ (d + 1)) : x ^^^ y < 2 ^ d := by
  have hp : 2 ^ (d + 1) = 2 * 2 ^ d := by ring
  have hxe : x = 2 ^ d + (x - 2 ^ d) := by omega
  have hye : y = 2 ^ d + (y - 2 ^ d) := by omega
  have hxa : x - 2 ^ d < 2 ^ d := by omega
  have hya : y - 2 ^ d < 2 ^ d := by omega
  rw [hxe, hye, two_pow_add_eq_xor d _ hxa, two_pow_add_eq_xor d _ hya]
  have : 2 ^ d ^^^ (x - 2 ^ d) ^^^ (2 ^ d ^^^ (y - 2 ^ d))
      = (x - 2 ^ d) ^^^ (y - 2 ^ d) := by
    rw [Nat.xor_assoc, xor_left_comm, Nat.xor_cancel_left]
  rw [this]
  exact Nat.xor_lt_two_pow hxa hya

theorem two_pow_sub_one_sub (n : Nat) :
    ∀ j : Nat, j < 2 ^ n → 2 ^ n - 1 - j = (2 ^ n - 1) ^^^ j := by
  induction n with
  | zero =>
    intro j hj
    interval_cases j
    decide
  | succ n ih =>
    intro j hj
    have hd : 2 ^ (n + 1) = 2 * 2 ^ n := by ring
    have h2 := xor_decomp (2 ^ (n + 1) - 1) j
    have e1 : (2 ^ (n + 1) - 1) / 2 = 2 ^ n - 1 := by omega
    have e2 : (2 ^ (n + 1) - 1) % 2 = 1 := by omega
    rw [e1, e2] at h2
    have hj2 : j / 2 < 2 ^ n := by omega
    rw [h2, ← ih (j / 2) hj2]
    rcases Nat.mod_two_eq_zero_or_one j with h | h <;> rw [h] <;> simp <;> omega

/-! ### Lemmas about the transition spl_rand_next -/

theorem nextState_def (s : Nat × Nat) :
    nextState s =
      (s.2, (s.1 ^^^ (s.1 <<< 23) % 2 ^ 64) ^^^ s.2 ^^^
        ((s.1 ^^^ (s.1 <<< 23) % 2 ^ 64) >>> 18) ^^^ (s.2 >>> 5)) := rfl

theorem nextState_lt (s : Nat × Nat) (h1 : s.1 < 2 ^ 64) (h2 : s.2 < 2 ^ 64) :
    (nextState s).1 < 2 ^ 64 ∧ (nextState s).2 < 2 ^ 64 := by
  rw [nextState_def]
  have hp : 0 < 2 ^ 64 := by positivity
  have hb : s.1 ^^^ (s.1 <<< 23) % 2 ^ 64 < 2 ^ 64 :=
    Nat.xor_lt_two_pow h1 (Nat.mod_lt _ hp)
  have hr1 : (s.1 ^^^ (s.1 <<< 23) % 2 ^ 64) >>> 18 < 2 ^ 64 := by
    rw [Nat.shiftRight_eq_div_pow]
    exact lt_of_le_of_lt (Nat.div_le_self _ _) hb
  have hr2 : s.2 >>> 5 < 2 ^ 64 := by
    rw [Nat.shiftRight_eq_div_pow]
    exact lt_of_le_of_lt (Nat.div_le_self _ _) h2
  exact ⟨h2, Nat.xor_lt_two_pow (Nat.xor_lt_two_pow (Nat.xor_lt_two_pow hb h2) hr1) hr2⟩

theorem nextState_iterate_lt (n : Nat) (s : Nat × Nat)
    (h1 : s.1 < 2 ^ 64) (h2 : s.2 < 2 ^ 64) :
    (nextState^[n] s).1 < 2 ^ 64 ∧ (nextState^[n] s).2 < 2 ^ 64 := by
  induction n generalizing s with
  | zero => exact ⟨h1, h2⟩
  | succ n ih =>
    rw [Function.iterate_succ_apply]
    obtain ⟨g1, g2⟩ := nextState_lt s h1 h2
    exact ih _ g1 g2

theorem nextState_pxor (s t : Nat × Nat) :
    nextState (pxor s t) = pxor (nextState s) (nextState t) := by
  rw [nextState_def, nextState_def, nextState_def, pxor, pxor]
  refine Prod.ext rfl ?_
  simp only
  rw [xor_shiftLeft, xor_mod_two_pow]
  have hb : s.1 ^^^ t.1 ^^^ ((s.1 <<< 23) % 2 ^ 64 ^^^ (t.1 <<< 23) % 2 ^ 64)
      = (s.1 ^^^ (s.1 <<< 23) % 2 ^ 64) ^^^ (t.1 ^^^ (t.1 <<< 23) % 2 ^ 64) := by
    rw [Nat.xor_assoc, xor_left_comm t.1, ← Nat.xor_assoc]
  rw [hb]
  generalize s.1 ^^^ (s.1 <<< 23) % 2 ^ 64 = A
  generalize t.1 ^^^ (t.1 <<< 23) % 2 ^ 64 = B
  rw [xor_shiftRight A B, xor_shiftRight s.2 t.2]
  simp only [Nat.xor_assoc]
  simp only [Nat.xor_comm, xor_left_comm]
  simp only [Nat.xor_assoc]

theorem nextState_ne_zero (a b : Nat) (ha : a < 2 ^ 64)
    (h : (a, b) ≠ (0, 0)) : nextState (a, b) ≠ (0, 0) := by
  intro hc
  rw [nextState_def, Prod.mk.injEq] at hc
  obtain ⟨hb0, hn0⟩ := hc
  simp only at hb0 hn0
  subst hb0
  rw [Nat.xor_zero, Nat.zero_shiftRight, Nat.xor_zero] at hn0
  set A := a ^^^ (a <<< 23) % 2 ^ 64 with hA
  have hAlt : A < 2 ^ 64 :=
    Nat.xor_lt_two_pow ha (Nat.mod_lt _ (by positivity))
  have e : A = A >>> 18 := Nat.xor_eq_zero.mp hn0
  have e2 : A = A >>> 36 := by
    rw [show (36 : Nat) = 18 + 18 from rfl, Nat.shiftRight_add, ← e]
    exact e
  have e4 : A = A >>> 72 := by
    rw [show (72 : Nat) = 36 + 36 from rfl, Nat.shiftRight_add, ← e2]
    exact e2
  have hA0 : A = 0 := by
    rw [e4, Nat.shiftRight_eq_div_pow]
    exact Nat.div_eq_of_lt (lt_trans hAlt (by norm_num))
  have f : a = (a * 2 ^ 23) % 2 ^ 64 := by
    have := Nat.xor_eq_zero.mp (hA ▸ hA0)
    rwa [Nat.shiftLeft_eq] at this
  have step : ∀ m : Nat, a = (a * 2 ^ m) % 2 ^ 64 → a = (a * 2 ^ (m + 23)) % 2 ^ 64 := by
    intro m hm
    calc a = (a * 2 ^ 23) % 2 ^ 64 := f
    _ = ((a * 2 ^ m) % 2 ^ 64 * 2 ^ 23) % 2 ^ 64 := by rw [← hm]
    _ = (a * 2 ^ m * 2 ^ 23) % 2 ^ 64 := by rw [Nat.mod_mul_mod]
    _ = (a * 2 ^ (m + 23)) % 2 ^ 64 := by rw [mul_assoc, ← pow_add]
  have g69 : a = (a * 2 ^ 69) % 2 ^ 64 := step 46 (step 23 f)
  have hz : (a * 2 ^ 69) % 2 ^ 64 = 0 := by
    have : a * 2 ^ 69 = a * 2 ^ 5 * 2 ^ 64 := by ring
    rw [this, Nat.mul_mod_left]
  have ha0 : a = 0 := g69.trans hz
  exact h (by rw [ha0])

theorem nextState_iterate_ne_zero (a b : Nat) (ha : a < 2 ^ 64) (hb : b < 2 ^ 64)
    (h : (a, b) ≠ (0, 0)) : ∀ n : Nat, nextState^[n] (a, b) ≠ (0, 0) := by
  intro n
  induction n generalizing a b with
  | zero => exact h
  | succ n ih =>
    rw [Function.iterate_succ_apply]
    obtain ⟨g1, g2⟩ := nextState_lt (a, b) ha hb
    have hne := nextState_ne_zero a b ha h
    have : nextState (a, b) = ((nextState (a, b)).1, (nextState (a, b)).2) := rfl
    rw [this] at hne ⊢
    exact ih _ _ g1 g2 hne

/-! ### Lemmas about the 128-bit encoding and T128 -/

theorem pxor_zero (p : Nat × Nat) : pxor p (0, 0) = p := by
  simp [pxor]

theorem pxor_zero_left (p : Nat × Nat) : pxor (0, 0) p = p := by
  simp [pxor]

theorem pxor_assoc (p q r : Nat × Nat) :
    pxor (pxor p q) r = pxor p (pxor q r) := by
  simp [pxor, Nat.xor_assoc]

theorem dec_enc (s : Nat × Nat) (h : s.1 < 2 ^ 64) : dec (enc s) = s := by
  have h1 : (s.1 + s.2 * 2 ^ 64) % 2 ^ 64 = s.1 := by
    rw [Nat.add_mul_mod_self_right, Nat.mod_eq_of_lt h]
  have h2 : (s.1 + s.2 * 2 ^ 64) / 2 ^ 64 = s.2 := by
    rw [Nat.add_mul_div_right _ _ (by positivity : 0 < 2 ^ 64),
      Nat.div_eq_of_lt h, Nat.zero_add]
  rw [dec, enc, h1, h2]

theorem enc_lt (s : Nat × Nat) (h1 : s.1 < 2 ^ 64) (h2 : s.2 < 2 ^ 64) :
    enc s < 2 ^ 128 := by
  have hp : (2 : Nat) ^ 128 = 2 ^ 64 * 2 ^ 64 := by norm_num
  have e : (s.2 + 1) * 2 ^ 64 = s.2 * 2 ^ 64 + 2 ^ 64 := by ring
  have h3 : (s.2 + 1) * 2 ^ 64 ≤ 2 ^ 64 * 2 ^ 64 :=
    Nat.mul_le_mul_right _ (by omega)
  rw [enc]
  omega

theorem dec_lt (v : Nat) (h : v < 2 ^ 128) :
    (dec v).1 < 2 ^ 64 ∧ (dec v).2 < 2 ^ 64 := by
  constructor
  · exact Nat.mod_lt _ (by positivity)
  · rw [dec]
    simp only
    rw [Nat.div_lt_iff_lt_mul (by positivity : 0 < 2 ^ 64)]
    calc v < 2 ^ 128 := h
    _ = 2 ^ 64 * 2 ^ 64 := by norm_num

theorem dec_xor (x y : Nat) : dec (x ^^^ y) = pxor (dec x) (dec y) := by
  rw [dec, dec, dec, pxor]
  simp only
  rw [xor_mod_two_pow, xor_div_two_pow]

theorem enc_pxor (s t : Nat × Nat) (hs : s.1 < 2 ^ 64) (ht : t.1 < 2 ^ 64) :
    enc (pxor s t) = enc s ^^^ enc t := by
  have hm : (enc s ^^^ enc t) % 2 ^ 64 = s.1 ^^^ t.1 := by
    rw [xor_mod_two_pow, enc, enc, Nat.add_mul_mod_self_right,
      Nat.add_mul_mod_self_right, Nat.mod_eq_of_lt hs, Nat.mod_eq_of_lt ht]
  have hd : (enc s ^^^ enc t) / 2 ^ 64 = s.2 ^^^ t.2 := by
    rw [xor_div_two_pow, enc, enc,
      Nat.add_mul_div_right _ _ (by positivity : 0 < 2 ^ 64),
      Nat.add_mul_div_right _ _ (by positivity : 0 < 2 ^ 64),
      Nat.div_eq_of_lt hs, Nat.div_eq_of_lt ht, Nat.zero_add, Nat.zero_add]
  have := Nat.div_add_mod (enc s ^^^ enc t) (2 ^ 64)
  rw [hm, hd] at this
  rw [enc, pxor]
  simp only
  omega

theorem T128_enc (s : Nat × Nat) (h : s.1 < 2 ^ 64) :
    T128 (enc s) = enc (nextState s) := by
  rw [T128, dec_enc s h]

theorem T128_zero : T128 0 = 0 := by decide

theorem T128_lt (v : Nat) (h : v < 2 ^ 128) : T128 v < 2 ^ 128 := by
  obtain ⟨h1, h2⟩ := dec_lt v h
  obtain ⟨g1, g2⟩ := nextState_lt (dec v) h1 h2
  exact enc_lt _ g1 g2

theorem T128_xor (x y : Nat) (hx : x < 2 ^ 128) (hy : y < 2 ^ 128) :
    T128 (x ^^^ y) = T128 x ^^^ T128 y := by
  rw [T128, T128, T128, dec_xor, nextState_pxor]
  obtain ⟨hx1, hx2⟩ := dec_lt x hx
  obtain ⟨hy1, hy2⟩ := dec_lt y hy
  exact enc_pxor _ _ (nextState_lt _ hx1 hx2).1 (nextState_lt _ hy1 hy2).1

theorem T128_iterate_lt (n v : Nat) (h : v < 2 ^ 128) : T128^[n] v < 2 ^ 128 := by
  induction n generalizing v with
  | zero => exact h
  | succ n ih =>
    rw [Function.iterate_succ_apply]
    exact ih _ (T128_lt v h)

theorem T128_iterate_enc (n : Nat) (s : Nat × Nat)
    (h1 : s.1 < 2 ^ 64) (h2 : s.2 < 2 ^ 64) :
    T128^[n] (enc s) = enc (nextState^[n] s) := by
  induction n generalizing s with
  | zero => rfl
  | succ n ih =>
    rw [Function.iterate_succ_apply, Function.iterate_succ_apply, T128_enc s h1]
    obtain ⟨g1, g2⟩ := nextState_lt s h1 h2
    exact ih _ g1 g2

/-! ### Lemmas about polynomial evaluation at T128 -/

theorem polyApplyVec_zero_poly (v : Nat) : polyApplyVec 0 v = 0 := by
  rw [polyApplyVec]
  simp

theorem polyApplyVec_unfold (p v : Nat) :
    polyApplyVec p v
      = (if p % 2 = 1 then v else 0) ^^^ polyApplyVec (p / 2) (T128 v) := by
  by_cases h : p = 0
  · subst h
    rw [polyApplyVec_zero_poly]
    norm_num [polyApplyVec_zero_poly]
  · rw [polyApplyVec]
    simp [h]

theorem polyApplyVec_two_mul (q v : Nat) :
    polyApplyVec (2 * q) v = polyApplyVec q (T128 v) := by
  rw [polyApplyVec_unfold]
  have h1 : 2 * q % 2 = 0 := by omega
  have h2 : 2 * q / 2 = q := by omega
  rw [h1, h2]
  simp

theorem polyApplyVec_two_mul_add_one (q v : Nat) :
    polyApplyVec (2 * q + 1) v = v ^^^ polyApplyVec q (T128 v) := by
  rw [polyApplyVec_unfold]
  have h1 : (2 * q + 1) % 2 = 1 := by omega
  have h2 : (2 * q + 1) / 2 = q := by omega
  rw [h1, h2]
  simp

theorem polyApplyVec_zero_vec (p : Nat) : polyApplyVec p 0 = 0 := by
  induction p using Nat.strong_induction_on with
  | _ p ih =>
    by_cases h : p = 0
    · subst h
      exact polyApplyVec_zero_poly 0
    · rw [polyApplyVec_unfold, T128_zero]
      rw [ih (p / 2) (by omega)]
      simp

theorem polyApplyVec_lt (p : Nat) :
    ∀ v : Nat, v < 2 ^ 128 → polyApplyVec p v < 2 ^ 128 := by
  induction p using Nat.strong_induction_on with
  | _ p ih =>
    intro v hv
    by_cases h : p = 0
    · subst h
      rw [polyApplyVec_zero_poly]
      positivity
    · rw [polyApplyVec_unfold]
      refine Nat.xor_lt_two_pow ?_ (ih (p / 2) (by omega) _ (T128_lt v hv))
      by_cases hc : p % 2 = 1
      · rw [if_pos hc]
        exact hv
      · rw [if_neg hc]
        positivity

theorem polyApplyVec_xor_vec (p : Nat) :
    ∀ x y : Nat, x < 2 ^ 128 → y < 2 ^ 128 →
      polyApplyVec p (x ^^^ y) = polyApplyVec p x ^^^ polyApplyVec p y := by
  induction p using Nat.strong_induction_on with
  | _ p ih =>
    intro x y hx hy
    by_cases h : p = 0
    · subst h
      simp [polyApplyVec_zero_poly]
    · rw [polyApplyVec_unfold, polyApplyVec_unfold p x, polyApplyVec_unfold p y,
        T128_xor x y hx hy, ih (p / 2) (by omega) _ _ (T128_lt x hx) (T128_lt y hy)]
      by_cases hc : p % 2 = 1
      · rw [if_pos hc, if_pos hc, if_pos hc]
        generalize polyApplyVec (p / 2) (T128 x) = A
        generalize polyApplyVec (p / 2) (T128 y) = B
        rw [Nat.xor_assoc x A, Nat.xor_assoc, xor_left_comm A y, ← Nat.xor_assoc x y]
      · rw [if_neg hc, if_neg hc, if_neg hc, Nat.zero_xor, Nat.zero_xor, Nat.zero_xor]

theorem polyApplyVec_T128_comm (p : Nat) :
    ∀ v : Nat, v < 2 ^ 128 →
      T128 (polyApplyVec p v) = polyApplyVec p (T128 v) := by
  induction p using Nat.strong_induction_on with
  | _ p ih =>
    intro v hv
    by_cases h : p = 0
    · subst h
      rw [polyApplyVec_zero_poly, polyApplyVec_zero_poly, T128_zero]
    · rw [polyApplyVec_unfold, polyApplyVec_unfold p (T128 v)]
      have hifle : (if p % 2 = 1 then v else 0) < 2 ^ 128 := by
        by_cases hc : p % 2 = 1
        · rw [if_pos hc]
          exact hv
        · rw [if_neg hc]
          positivity
      rw [T128_xor _ _ hifle (polyApplyVec_lt _ _ (T128_lt v hv))]
      rw [ih (p / 2) (by omega) _ (T128_lt v hv)]
      congr 1
      by_cases hc : p % 2 = 1 <;> simp [hc, T128_zero]

theorem polyApplyVec_xor_poly (a : Nat) :
    ∀ b v : Nat, polyApplyVec (a ^^^ b) v = polyApplyVec a v ^^^ polyApplyVec b v := by
  induction a using Nat.strong_induction_on with
  | _ a ih =>
    intro b v
    by_cases h : a = 0
    · subst h
      rw [Nat.zero_xor, polyApplyVec_zero_poly, Nat.zero_xor]
    · rw [polyApplyVec_unfold (a ^^^ b), polyApplyVec_unfold a, polyApplyVec_unfold b]
      have hm : (a ^^^ b) % 2 = a % 2 ^^^ b % 2 := by
        have := xor_mod_two_pow a b 1
        simpa using this
      have hd : (a ^^^ b) / 2 = a / 2 ^^^ b / 2 := by
        have := xor_div_two_pow a b 1
        simpa using this
      rw [hm, hd, ih (a / 2) (by omega)]
      generalize polyApplyVec (a / 2) (T128 v) = A
      generalize polyApplyVec (b / 2) (T128 v) = B
      rcases Nat.mod_two_eq_zero_or_one a with h1 | h1 <;>
        rcases Nat.mod_two_eq_zero_or_one b with h2 | h2 <;> rw [h1, h2]
      · rw [if_neg (by decide : ¬(0 : Nat) ^^^ 0 = 1), if_neg (by decide : ¬(0 : Nat) = 1),
          Nat.zero_xor, Nat.zero_xor, Nat.zero_xor]
      · rw [if_pos (by decide : (0 : Nat) ^^^ 1 = 1), if_neg (by decide : ¬(0 : Nat) = 1),
          if_pos rfl, Nat.zero_xor, xor_left_comm]
      · rw [if_pos (by decide : (1 : Nat) ^^^ 0 = 1), if_pos rfl,
          if_neg (by decide : ¬(0 : Nat) = 1), Nat.zero_xor, Nat.xor_assoc]
      · rw [if_neg (by decide : ¬(1 : Nat) ^^^ 1 = 1), if_pos rfl, Nat.zero_xor,
          Nat.xor_assoc v A, xor_left_comm A v, Nat.xor_cancel_left]

theorem polyApplyVec_shiftLeft (p t : Nat) :
    ∀ v : Nat, polyApplyVec (p <<< t) v = polyApplyVec p (T128^[t] v) := by
  induction t with
  | zero =>
    intro v
    rw [Nat.shiftLeft_zero, Function.iterate_zero_apply]
  | succ t ih =>
    intro v
    rw [Nat.shiftLeft_succ, polyApplyVec_two_mul, ih (T128 v),
      Function.iterate_succ_apply]

theorem polyApplyVec_eq_aux (f : Nat) :
    ∀ p v : Nat, p < 2 ^ f → polyApplyVec p v = polyApplyVecAux f p v := by
  induction f with
  | zero =>
    intro p v hp
    interval_cases p
    rw [polyApplyVec_zero_poly]
    rfl
  | succ f ih =>
    intro p v hp
    by_cases h : p = 0
    · subst h
      rw [polyApplyVec_zero_poly]
      simp [polyApplyVecAux]
    · rw [polyApplyVec_unfold, ih (p / 2) (T128 v) (by omega)]
      simp [polyApplyVecAux, h]

theorem charpoly_bound : 2 ^ 128 ≤ CHARPOLY ∧ CHARPOLY < 2 ^ 129 := by decide

set_option maxHeartbeats 4000000 in
theorem charpoly_basis : ∀ k, k < 128 → polyApplyVec CHARPOLY (2 ^ k) = 0 := by
  have h : ∀ k, k < 128 → polyApplyVecAux 129 CHARPOLY (2 ^ k) = 0 := by decide
  intro k hk
  rw [polyApplyVec_eq_aux 129 CHARPOLY _ (by decide)]
  exact h k hk

theorem charpoly_annihilates :
    ∀ v : Nat, v < 2 ^ 128 → polyApplyVec CHARPOLY v = 0 := by
  intro v
  induction v using Nat.strong_induction_on with
  | _ v ih =>
    intro hv
    by_cases h : v = 0
    · subst h
      exact polyApplyVec_zero_vec CHARPOLY
    · have hk : v.log2 < 128 := (Nat.log2_lt h).mpr hv
      have hle : 2 ^ v.log2 ≤ v := Nat.log2_self_le h
      have hlt : v < 2 ^ (v.log2 + 1) := Nat.lt_log2_self
      have hp : 2 ^ (v.log2 + 1) = 2 * 2 ^ v.log2 := by ring
      have hm : v - 2 ^ v.log2 < 2 ^ v.log2 := by omega
      have hsplit : v = 2 ^ v.log2 + (v - 2 ^ v.log2) := by omega
      have h2k : (2 : Nat) ^ v.log2 < 2 ^ 128 :=
        (Nat.pow_lt_pow_iff_right (by norm_num)).mpr hk
      rw [hsplit, two_pow_add_eq_xor _ _ hm,
        polyApplyVec_xor_vec CHARPOLY _ _ h2k (lt_trans hm h2k),
        charpoly_basis _ hk, ih (v - 2 ^ v.log2) (by omega) (lt_trans hm h2k)]
      rfl

theorem spread_lt (f : Nat) :
    ∀ q g : Nat, q < 2 ^ g → spread f q < 2 ^ (2 * g) := by
  induction f with
  | zero =>
    intro q g _
    show 0 < 2 ^ (2 * g)
    positivity
  | succ f ih =>
    intro q g hq
    by_cases h : q = 0
    · subst h
      simp only [spread, if_pos rfl]
      positivity
    · simp only [spread, if_neg h]
      cases g with
      | zero =>
        interval_cases q
        omega
      | succ g2 =>
        have hp : 2 ^ (g2 + 1) = 2 * 2 ^ g2 := by ring
        have hq2 : q / 2 < 2 ^ g2 := by omega
        have hs := ih (q / 2) g2 hq2
        have e1 : 2 ^ (2 * (g2 + 1)) = 4 * 2 ^ (2 * g2) := by ring
        omega

theorem polyReduce_polyApplyVec (t : Nat) :
    ∀ q v : Nat, v < 2 ^ 128 →
      polyApplyVec (polyReduce CHARPOLY t q) v = polyApplyVec q v := by
  induction t with
  | zero => intro q v _; rfl
  | succ t ih =>
    intro q v hv
    show polyApplyVec
      (polyReduce CHARPOLY t (if 2 ^ (128 + t) ≤ q then q ^^^ (CHARPOLY <<< t) else q)) v
        = polyApplyVec q v
    rw [ih _ v hv]
    by_cases hle : 2 ^ (128 + t) ≤ q
    · rw [if_pos hle, polyApplyVec_xor_poly, polyApplyVec_shiftLeft,
        charpoly_annihilates _ (T128_iterate_lt t v hv), Nat.xor_zero]
    · rw [if_neg hle]

theorem polyReduce_lt (t : Nat) :
    ∀ q : Nat, q < 2 ^ (128 + t) → polyReduce CHARPOLY t q < 2 ^ 128 := by
  induction t with
  | zero => intro q hq; exact hq
  | succ t ih =>
    intro q hq
    show polyReduce CHARPOLY t (if 2 ^ (128 + t) ≤ q then q ^^^ (CHARPOLY <<< t) else q)
      < 2 ^ 128
    by_cases hle : 2 ^ (128 + t) ≤ q
    · rw [if_pos hle]
      refine ih _ ?_
      refine xor_top_cancel (128 + t) q (CHARPOLY <<< t) hle ?_ ?_ ?_
      · have e : 128 + (t + 1) = 128 + t + 1 := by omega
        rw [e] at hq
        exact hq
      · rw [Nat.shiftLeft_eq, pow_add]
        exact Nat.mul_le_mul_right _ charpoly_bound.1
      · rw [Nat.shiftLeft_eq]
        calc CHARPOLY * 2 ^ t < 2 ^ 129 * 2 ^ t :=
          (Nat.mul_lt_mul_right (by positivity : 0 < 2 ^ t)).mpr charpoly_bound.2
        _ = 2 ^ (128 + t + 1) := by rw [← pow_add]; congr 1; omega
    · rw [if_neg hle]
      exact ih _ (by omega)

theorem polyApplyVec_spread (f : Nat) :
    ∀ r v : Nat, r < 2 ^ f → v < 2 ^ 128 →
      polyApplyVec (spread f r) v = polyApplyVec r (polyApplyVec r v) := by
  induction f with
  | zero =>
    intro r v hr _
    interval_cases r
    simp [spread, polyApplyVec_zero_poly]
  | succ f ih =>
    intro r v hr hv
    by_cases h : r = 0
    · subst h
      simp [spread, polyApplyVec_zero_poly]
    · simp only [spread, if_neg h]
      have hp : 2 ^ (f + 1) = 2 * 2 ^ f := by ring
      have hq : r / 2 < 2 ^ f := by omega
      have hTv : T128 v < 2 ^ 128 := T128_lt v hv
      have hTTv : T128 (T128 v) < 2 ^ 128 := T128_lt _ hTv
      rcases Nat.mod_two_eq_zero_or_one r with he | he
      · rw [he]
        have e4 : 0 + 4 * spread f (r / 2) = 2 * (2 * spread f (r / 2)) := by ring
        rw [e4, polyApplyVec_two_mul, polyApplyVec_two_mul,
          ih (r / 2) _ hq hTTv]
        have hre : r = 2 * (r / 2) := by omega
        conv_rhs => rw [hre]
        rw [polyApplyVec_two_mul, polyApplyVec_two_mul,
          polyApplyVec_T128_comm (r / 2) (T128 v) hTv]
      · rw [he]
        have e4 : 1 + 4 * spread f (r / 2) = 2 * (2 * spread f (r / 2)) + 1 := by ring
        rw [e4, polyApplyVec_two_mul_add_one, polyApplyVec_two_mul,
          ih (r / 2) _ hq hTTv]
        have hre : r = 2 * (r / 2) + 1 := by omega
        conv_rhs => rw [hre]
        rw [polyApplyVec_two_mul_add_one]
        have hX : polyApplyVec (r / 2) (T128 v) < 2 ^ 128 :=
          polyApplyVec_lt _ _ hTv
        rw [polyApplyVec_two_mul_add_one, T128_xor v _ hv hX,
          polyApplyVec_T128_comm (r / 2) (T128 v) hTv,
          polyApplyVec_xor_vec _ _ _ hTv (polyApplyVec_lt _ _ hTTv),
          Nat.xor_assoc v, Nat.xor_cancel_left]

theorem natForce_eq (n : Nat) (f : Nat → Nat) : natForce n f = f n := by
  cases n <;> rfl

theorem polySquares_succ (p k r : Nat) :
    polySquares p (k + 1) r = polySquares p k (polyReduce p 128 (spread 128 r)) := by
  rw [polySquares, natForce_eq]

theorem polySquares_polyApplyVec (k : Nat) :
    ∀ m r : Nat, r < 2 ^ 128 →
      (∀ v : Nat, v < 2 ^ 128 → polyApplyVec r v = T128^[m] v) →
      ∀ v : Nat, v < 2 ^ 128 →
        polyApplyVec (polySquares CHARPOLY k r) v = T128^[m * 2 ^ k] v := by
  induction k with
  | zero =>
    intro m r _ h v hv
    rw [show polySquares CHARPOLY 0 r = r from rfl, h v hv]
    norm_num
  | succ k ih =>
    intro m r hr h v hv
    rw [polySquares_succ]
    have hsp : spread 128 r < 2 ^ 256 := by
      have := spread_lt 128 r 128 hr
      norm_num at this ⊢
      exact this
    have hr2 : polyReduce CHARPOLY 128 (spread 128 r) < 2 ^ 128 := by
      refine polyReduce_lt 128 _ ?_
      norm_num
      exact hsp
    have h2 : ∀ w : Nat, w < 2 ^ 128 →
        polyApplyVec (polyReduce CHARPOLY 128 (spread 128 r)) w = T128^[m + m] w := by
      intro w hw
      rw [polyReduce_polyApplyVec 128 _ w hw, polyApplyVec_spread 128 r w hr hw,
        h w hw, h _ (T128_iterate_lt m w hw), ← Function.iterate_add_apply]
    have := ih (m + m) _ hr2 h2 v hv
    rw [this]
    congr 1
    ring

theorem jumppoly_iterate (v : Nat) (hv : v < 2 ^ 128) :
    polyApplyVec JUMPPOLY v = T128^[2 ^ 64] v := by
  have hkey : polySquares CHARPOLY 64 2 = JUMPPOLY := by decide
  have hbase : ∀ w : Nat, w < 2 ^ 128 → polyApplyVec 2 w = T128^[1] w := by
    intro w _
    have e : (2 : Nat) = 2 * 1 := rfl
    rw [e, polyApplyVec_two_mul,
      show (1 : Nat) = 2 * 0 + 1 from rfl, polyApplyVec_two_mul_add_one,
      polyApplyVec_zero_poly, Nat.xor_zero, Function.iterate_one]
  have := polySquares_polyApplyVec 64 1 2 (by norm_num) hbase v hv
  rw [hkey, one_mul] at this
  exact this

/-! ### The jump loop evaluates the JUMP polynomial -/

theorem and_shift_succ (w b : Nat) :
    (w &&& (1 <<< (b + 1)) ≠ 0) = (w / 2 &&& (1 <<< b) ≠ 0) := by
  have h1 : 1 <<< (b + 1) = 2 ^ (b + 1) := by rw [Nat.shiftLeft_eq, one_mul]
  have h2 : 1 <<< b = 2 ^ b := by rw [Nat.shiftLeft_eq, one_mul]
  rw [h1, h2, Nat.and_two_pow, Nat.and_two_pow, Nat.testBit_div_two]
  cases htb : w.testBit (b + 1) <;> simp [htb]

theorem and_one_ne (w : Nat) : (w &&& (1 <<< 0) ≠ 0) = (w % 2 = 1) := by
  have h1 : 1 <<< 0 = 1 := rfl
  rw [h1, Nat.and_one_is_mod]
  apply propext
  omega

theorem jstep_fold (n : Nat) :
    ∀ (w : Nat) (acc c : Nat × Nat), c.1 < 2 ^ 64 → c.2 < 2 ^ 64 →
      (List.range n).foldl (jstep w) (acc, c) =
        (pxor acc (dec (polyApplyVec (w % 2 ^ n) (enc c))), nextState^[n] c) := by
  induction n with
  | zero =>
    intro w acc c _ _
    simp only [List.range_zero, List.foldl_nil, pow_zero, Nat.mod_one,
      polyApplyVec_zero_poly, Function.iterate_zero_apply]
    rw [show dec 0 = (0, 0) from rfl, pxor_zero]
  | succ n ih =>
    intro w acc c h1 h2
    rw [List.range_succ_eq_map, List.foldl_cons, List.foldl_map]
    have hfn : (fun (q : (Nat × Nat) × (Nat × Nat)) (b : Nat) => jstep w q b.succ)
        = jstep (w / 2) := by
      funext q b
      show jstep w q (b + 1) = jstep (w / 2) q b
      unfold jstep
      exact Prod.ext (if_congr (iff_of_eq (and_shift_succ w b)) rfl rfl) rfl
    rw [hfn]
    have hstep0 : jstep w (acc, c) 0
        = ((if w % 2 = 1 then pxor acc c else acc), nextState c) := by
      unfold jstep
      exact Prod.ext (if_congr (iff_of_eq (and_one_ne w)) rfl rfl) rfl
    rw [hstep0]
    obtain ⟨g1, g2⟩ := nextState_lt c h1 h2
    rw [ih (w / 2) _ (nextState c) g1 g2]
    have hW : polyApplyVec (w % 2 ^ (n + 1)) (enc c)
        = (if w % 2 = 1 then enc c else 0)
          ^^^ polyApplyVec (w / 2 % 2 ^ n) (T128 (enc c)) := by
      have e1 : w % 2 ^ (n + 1) % 2 = w % 2 :=
        Nat.mod_mod_of_dvd w ⟨2 ^ n, by ring⟩
      have e2 : w % 2 ^ (n + 1) / 2 = w / 2 % 2 ^ n := by
        have hp : (2 : Nat) ^ (n + 1) = 2 * 2 ^ n := by ring
        rw [hp, Nat.mod_mul_right_div_self]
      rw [polyApplyVec_unfold, e1, e2]
    rw [hW, dec_xor]
    have hifd : dec (if w % 2 = 1 then enc c else 0)
        = (if w % 2 = 1 then c else (0, 0)) := by
      by_cases hc : w % 2 = 1
      · rw [if_pos hc, if_pos hc, dec_enc c h1]
      · rw [if_neg hc, if_neg hc]
        rfl
    rw [hifd, T128_enc c h1]
    refine Prod.ext ?_ ?_
    · simp only
      by_cases hc : w % 2 = 1
      · rw [if_pos hc, if_pos hc, pxor_assoc]
      · rw [if_neg hc, if_neg hc, pxor_zero_left]
    · simp only
      rw [Function.iterate_succ_apply]

theorem spl_rand_jump_eq_poly (s : Nat × Nat) (h1 : s.1 < 2 ^ 64) (h2 : s.2 < 2 ^ 64) :
    spl_rand_jump s = dec (polyApplyVec JUMPPOLY (enc s)) := by
  have hunf : spl_rand_jump s
      = ((List.range 64).foldl (jstep 0x121fd2155c472f96)
          ((List.range 64).foldl (jstep 0x8a5cd789635d2dff) ((0, 0), s))).1 := rfl
  rw [hunf, jstep_fold 64 _ _ s h1 h2, pxor_zero_left]
  have hm0 : (0x8a5cd789635d2dff : Nat) % 2 ^ 64 = 0x8a5cd789635d2dff := by decide
  rw [hm0]
  obtain ⟨g1, g2⟩ := nextState_iterate_lt 64 s h1 h2
  rw [jstep_fold 64 _ _ _ g1 g2]
  have hm1 : (0x121fd2155c472f96 : Nat) % 2 ^ 64 = 0x121fd2155c472f96 := by decide
  rw [hm1]
  show pxor (dec (polyApplyVec 0x8a5cd789635d2dff (enc s)))
      (dec (polyApplyVec 0x121fd2155c472f96 (enc (nextState^[64] s))))
    = dec (polyApplyVec JUMPPOLY (enc s))
  rw [← T128_iterate_enc 64 s h1 h2, ← polyApplyVec_shiftLeft, ← dec_xor,
    ← polyApplyVec_xor_poly]
  have hJ : (0x8a5cd789635d2dff : Nat) ^^^ 0x121fd2155c472f96 <<< 64 = JUMPPOLY := by
    decide
  rw [hJ]

theorem spl_rand_jump_iterate (s : Nat × Nat) (h1 : s.1 < 2 ^ 64) (h2 : s.2 < 2 ^ 64) :
    spl_rand_jump s = nextState^[2 ^ 64] s := by
  rw [spl_rand_jump_eq_poly s h1 h2, jumppoly_iterate _ (enc_lt s h1 h2),
    T128_iterate_enc _ s h1 h2, dec_enc _ (nextState_iterate_lt _ s h1 h2).1]

/-! ### Byte serialization lemmas for the fill service and the read path -/

theorem rgpb_fill_zero (be : Bool) (s : Nat × Nat) : rgpb_fill be s 0 = ([], s) := by
  simp [rgpb_fill]

theorem rgpb_fill_ne (be : Bool) (s : Nat × Nat) (len : Nat) (h : len ≠ 0) :
    rgpb_fill be s len =
      (((List.range (min len 8)).reverse).map (fun j => byteAt be (spl_rand_next s).2 j)
          ++ (rgpb_fill be (spl_rand_next s).1 (len - min len 8)).1,
        (rgpb_fill be (spl_rand_next s).1 (len - min len 8)).2) := by
  conv_lhs => rw [rgpb_fill]
  simp [h]

theorem revChunks_nil : revChunks [] = [] := by
  simp [revChunks]

theorem revChunks_ne (l : List Nat) (h : l ≠ []) :
    revChunks l = (l.take 8).reverse ++ revChunks (l.drop 8) := by
  conv_lhs => rw [revChunks]
  simp [h]

theorem revChunks_small (l : List Nat) (h : l.length ≤ 8) :
    revChunks l = l.reverse := by
  by_cases h0 : l = []
  · subst h0
    simp [revChunks_nil]
  · rw [revChunks_ne l h0, List.take_of_length_le h, List.drop_eq_nil_of_le h,
      revChunks_nil, List.append_nil]

theorem revChunks_chunk (a b : List Nat) (h : a.length = 8) :
    revChunks (a ++ b) = a.reverse ++ revChunks b := by
  have hne : a ++ b ≠ [] := by
    intro hc
    have := congrArg List.length hc
    simp [h] at this
  rw [revChunks_ne _ hne]
  have e8 : (8 : Nat) = a.length + 0 := by omega
  rw [e8, List.take_append, List.drop_append]
  simp

theorem reverse_map_range (n : Nat) (f : Nat → Nat) :
    (((List.range n).reverse).map f).reverse = (List.range n).map f := by
  rw [List.map_reverse, List.reverse_reverse]

theorem storeBytes_length (be : Bool) (w : Nat) : (storeBytes be w).length = 8 := by
  simp [storeBytes]

theorem poc_read_delivered_zero (be : Bool) (s : Nat × Nat) :
    poc_read_delivered be s 0 = [] := by
  simp [poc_read_delivered, poc_read_scratch, numWords, poc_scratch_words]

theorem poc_read_delivered_big (be : Bool) (s : Nat × Nat) (len : Nat) (h : 8 ≤ len) :
    poc_read_delivered be s len
      = storeBytes be (spl_rand_next s).2
          ++ poc_read_delivered be (spl_rand_next s).1 (len - 8) := by
  have hnw : numWords len = numWords (len - 8) + 1 := by
    simp only [numWords]
    omega
  simp only [poc_read_delivered, poc_read_scratch, hnw, poc_scratch_words,
    List.map_cons, List.flatten_cons]
  rw [List.take_append_eq_append_take, List.take_of_length_le (by rw [storeBytes_length]; omega),
    storeBytes_length]

theorem poc_read_delivered_small (be : Bool) (s : Nat × Nat) (len : Nat)
    (h0 : len ≠ 0) (h8 : len < 8) :
    poc_read_delivered be s len
      = (List.range len).map (fun j => byteAt be (spl_rand_next s).2 j) := by
  have hnw : numWords len = 1 := by
    simp only [numWords]
    omega
  simp only [poc_read_delivered, poc_read_scratch, hnw, poc_scratch_words,
    List.map_cons, List.map_nil, List.flatten_cons, List.flatten_nil,
    List.append_nil, storeBytes]
  rw [← List.map_take, List.take_range]
  have : min len 8 = len := by omega
  rw [this]

theorem delivered_eq_revChunks (be : Bool) :
    ∀ len : Nat, ∀ s : Nat × Nat,
      poc_read_delivered be s len = revChunks (rgpb_fill be s len).1 := by
  intro len
  induction len using Nat.strong_induction_on with
  | _ len ih =>
    intro s
    by_cases h0 : len = 0
    · subst h0
      rw [rgpb_fill_zero]
      show poc_read_delivered be s 0 = revChunks []
      rw [revChunks_nil, poc_read_delivered_zero]
    · rw [rgpb_fill_ne be s len h0]
      by_cases h8 : 8 ≤ len
      · have hmin : min len 8 = 8 := by omega
        rw [hmin]
        show poc_read_delivered be s len
          = revChunks (((List.range 8).reverse).map (fun j => byteAt be (spl_rand_next s).2 j)
              ++ (rgpb_fill be (spl_rand_next s).1 (len - 8)).1)
        rw [revChunks_chunk _ _ (by simp), reverse_map_range,
          poc_read_delivered_big be s len h8, ← ih (len - 8) (by omega)]
        rfl
      · have hmin : min len 8 = len := by omega
        rw [hmin, Nat.sub_self, rgpb_fill_zero]
        show poc_read_delivered be s len
          = revChunks (((List.range len).reverse).map (fun j => byteAt be (spl_rand_next s).2 j)
              ++ [])
        rw [List.append_nil, revChunks_small _ (by simp; omega), reverse_map_range,
          poc_read_delivered_small be s len h0 (by omega)]

theorem rgpb_length (be : Bool) :
    ∀ len : Nat, ∀ s : Nat × Nat, ((rgpb_fill be s len).1).length = len := by
  intro len
  induction len using Nat.strong_induction_on with
  | _ len ih =>
    intro s
    by_cases h0 : len = 0
    · subst h0
      rw [rgpb_fill_zero]
      rfl
    · rw [rgpb_fill_ne be s len h0]
      show (((List.range (min len 8)).reverse).map _
          ++ (rgpb_fill be (spl_rand_next s).1 (len - min len 8)).1).length = len
      rw [List.length_append, List.length_map, List.length_reverse, List.length_range,
        ih (len - min len 8) (by omega)]
      omega

theorem specFillBE_zero (s : Nat × Nat) : specFillBE s 0 = [] := by
  simp [specFillBE]

theorem specFillBE_big (s : Nat × Nat) (len : Nat) (h : 8 ≤ len) :
    specFillBE s len
      = bytesBE (spl_rand_next s).2 ++ specFillBE (spl_rand_next s).1 (len - 8) := by
  conv_lhs => rw [specFillBE]
  simp [show len ≠ 0 by omega, h]

theorem specFillBE_small (s : Nat × Nat) (len : Nat) (h0 : len ≠ 0) (h8 : len < 8) :
    specFillBE s len = (bytesBE (spl_rand_next s).2).drop (8 - len) := by
  conv_lhs => rw [specFillBE]
  simp [h0, show ¬8 ≤ len by omega]

theorem chunk_eq_bytesBE (w : Nat) :
    ((List.range 8).reverse).map (fun j => byteAt false w j) = bytesBE w := by
  norm_num [List.range_succ, byteAt, bytesBE, Nat.shiftRight_eq_div_pow]

theorem chunk_eq_bytesBE_drop (w len : Nat) (h0 : len ≠ 0) (h8 : len < 8) :
    ((List.range len).reverse).map (fun j => byteAt false w j)
      = (bytesBE w).drop (8 - len) := by
  interval_cases len <;>
    norm_num [List.range_succ, byteAt, bytesBE, Nat.shiftRight_eq_div_pow]

theorem rgpb_eq_specFillBE :
    ∀ len : Nat, ∀ s : Nat × Nat, (rgpb_fill false s len).1 = specFillBE s len := by
  intro len
  induction len using Nat.strong_induction_on with
  | _ len ih =>
    intro s
    by_cases h0 : len = 0
    · subst h0
      rw [rgpb_fill_zero, specFillBE_zero]
    · rw [rgpb_fill_ne false s len h0]
      by_cases h8 : 8 ≤ len
      · have hmin : min len 8 = 8 := by omega
        rw [hmin]
        show ((List.range 8).reverse).map (fun j => byteAt false (spl_rand_next s).2 j)
            ++ (rgpb_fill false (spl_rand_next s).1 (len - 8)).1 = specFillBE s len
        rw [specFillBE_big s len h8, chunk_eq_bytesBE, ih (len - 8) (by omega)]
      · have hmin : min len 8 = len := by omega
        rw [hmin, Nat.sub_self, rgpb_fill_zero]
        show ((List.range len).reverse).map (fun j => byteAt false (spl_rand_next s).2 j)
            ++ [] = specFillBE s len
        rw [List.append_nil, specFillBE_small s len h0 (by omega),
          chunk_eq_bytesBE_drop _ len h0 (by omega)]

/-! ### Evaluation helpers for concrete counterexamples -/

theorem rgpb_fill_eval8 (be : Bool) (s : Nat × Nat) :
    (rgpb_fill be s 8).1
      = ((List.range 8).reverse).map (fun j => byteAt be (spl_rand_next s).2 j) := by
  rw [rgpb_fill_ne be s 8 (by omega)]
  show ((List.range (min 8 8)).reverse).map _
      ++ (rgpb_fill be (spl_rand_next s).1 (8 - min 8 8)).1 = _
  norm_num [rgpb_fill_zero]

/-! ### Claim theorems -/

/-- Claim C1: the claim states that each retry attempt of the copy loop in
poc_read covers exactly the remaining byte range and stays inside the
scratch buffer and the first len bytes of the client buffer.  The code
violates this: for a len = 8 request whose first copy_to_user attempt
copies 1 byte (7 left), the loop is still running (left = 7), and the
second attempt passes offset 1 with count len = 8 rather than the
remaining 7, reaching offset 1 + 8 = 9, beyond the 8-byte scratch
allocation P2ROUNDUP 8 8 and beyond the first 8 client bytes. -/
theorem poc_read_retry_requests_full_length :
    poc_copy_state (fun k n => if k = 0 then n - 1 else 0) 8 1 = (1, 7) ∧
    (poc_copy_state (fun k n => if k = 0 then n - 1 else 0) 8 1).2 ≠ 0 ∧
    poc_copy_attempt (fun k n => if k = 0 then n - 1 else 0) 8 1 = (1, 8) ∧
    P2ROUNDUP 8 8 = 8 ∧ 1 + 8 > 8 := by
  refine ⟨by decide, by decide, by decide, by decide, by decide⟩

/-- Claim C2, counterexample: starting from state (1, 2) with length 8,
the scratch bytes poc_read would deliver differ from the bytes
random_get_pseudo_bytes produces (on a little-endian host the raw word
store is least-significant-byte first while the fill service emits
most-significant-byte first). -/
theorem poc_read_vs_fill_counterexample :
    poc_read_delivered false (1, 2) 8 ≠ (rgpb_fill false (1, 2) 8).1 := by
  rw [rgpb_fill_eval8]
  decide

/-- Claim C2, amended: for every host byte order, every starting state
and every length, the first len scratch bytes of poc_read equal the
random_get_pseudo_bytes output with each emitted word group of bytes
reversed (the two paths draw the same 64-bit output words and serialize
them in opposite byte orders). -/
theorem poc_read_delivered_eq_fill_reversed (be : Bool) (s : Nat × Nat) (len : Nat) :
    poc_read_delivered be s len = revChunks (rgpb_fill be s len).1 :=
  delivered_eq_revChunks be len s

/-- Claim C3, counterexample: the emission order of
random_get_pseudo_bytes is not independent of the host byte order: on a
big-endian host (be = true) the union overlay makes the loop emit the
least significant byte first, so from state (1, 2) with length 8 the
output differs from the most-significant-byte-first serialization that
the spec prescribes. -/
theorem fill_big_endian_counterexample :
    (rgpb_fill true (1, 2) 8).1 ≠ specFillBE (1, 2) 8 := by
  rw [rgpb_fill_eval8, specFillBE_big (1, 2) 8 (by omega)]
  rw [show (8 : Nat) - 8 = 0 from rfl, specFillBE_zero, List.append_nil]
  decide

/-- Claim C3, amended: on a little-endian host, random_get_pseudo_bytes
writes exactly len bytes, each 64-bit Transition output emitted most
significant byte first, and the final output word contributing only as
many of its trailing least-significant bytes as needed. -/
theorem fill_spec_little_endian (s : Nat × Nat) (len : Nat) :
    (rgpb_fill false s len).1 = specFillBE s len ∧
    ((rgpb_fill false s len).1).length = len :=
  ⟨rgpb_eq_specFillBE len s, rgpb_length false len s⟩

/-- Claim C4: the claim states that poc_read delivers exactly len bytes
for len in 0, 1, 4095, 4096, 4097 even when the copy primitive transfers
one byte per attempt.  The scratch allocation sizes match round_up, but
the delivery claim fails: with a primitive that copies exactly 1 byte per
call (leaving n - 1 of the n requested), a len = 4095 read never
terminates, because every attempt re-requests the full len from offset
copied, so copied stays at 1 and left stays at 4094 forever. -/
theorem poc_read_one_byte_retries_stall :
    P2ROUNDUP 0 8 = 0 ∧ P2ROUNDUP 1 8 = 8 ∧ P2ROUNDUP 4095 8 = 4096 ∧
    P2ROUNDUP 4096 8 = 4096 ∧ P2ROUNDUP 4097 8 = 4104 ∧
    ∀ k : Nat, (poc_copy_state (fun _ n => n - 1) 4095 k).2 ≠ 0 := by
  refine ⟨by decide, by decide, by decide, by decide, by decide, ?_⟩
  intro k
  induction k with
  | zero => decide
  | succ k ih =>
    simp only [poc_copy_state]
    rw [if_neg ih]
    norm_num

/-- Claim C5: one spl_rand_next step on state (a, b) produces the new
state (b, t xor b xor (t >>> 18) xor (b >>> 5)) with
t = (a xor (a <<< 23)) reduced to 64 bits, and returns the 64-bit sum of
the new second word and b. -/
theorem spl_rand_next_spec (a b : Nat) (ha : a < 2 ^ 64) (_hb : b < 2 ^ 64) :
    spl_rand_next (a, b)
      = ((b, ((a ^^^ (a <<< 23)) % 2 ^ 64) ^^^ b
            ^^^ (((a ^^^ (a <<< 23)) % 2 ^ 64) >>> 18) ^^^ (b >>> 5)),
        ((((a ^^^ (a <<< 23)) % 2 ^ 64) ^^^ b
            ^^^ (((a ^^^ (a <<< 23)) % 2 ^ 64) >>> 18) ^^^ (b >>> 5)) + b) % 2 ^ 64) := by
  have h : (a ^^^ (a <<< 23)) % 2 ^ 64 = a ^^^ ((a <<< 23) % 2 ^ 64) := by
    rw [xor_mod_two_pow, Nat.mod_eq_of_lt ha]
  rw [h]
  rfl

/-- Witness for claim C5 at the concrete state (3, 5). -/
theorem spl_rand_next_spec_witness :
    spl_rand_next (3, 5)
      = ((5, ((3 ^^^ (3 <<< 23)) % 2 ^ 64) ^^^ 5
            ^^^ (((3 ^^^ (3 <<< 23)) % 2 ^ 64) >>> 18) ^^^ (5 >>> 5)),
        ((((3 ^^^ (3 <<< 23)) % 2 ^ 64) ^^^ 5
            ^^^ (((3 ^^^ (3 <<< 23)) % 2 ^ 64) >>> 18) ^^^ (5 >>> 5)) + 5) % 2 ^ 64) :=
  spl_rand_next_spec 3 5 (by decide) (by decide)

/-- Claim C6: after the seeding loop of spl_random_init runs over n
units starting from the root seed, the state stored for unit i is the
root seed advanced by exactly i + 1 jumps, for every i below n; the loop
advances a single running state in unit order. -/
theorem spl_random_init_unit_seeds (root : Nat × Nat) (n i : Nat) (h : i < n) :
    (seedList n root)[i]? = some (spl_rand_jump^[i + 1] root) := by
  induction n generalizing root i with
  | zero => omega
  | succ n ih =>
    cases i with
    | zero =>
      show (spl_rand_jump root :: seedList n (spl_rand_jump root))[0]?
        = some (spl_rand_jump^[0 + 1] root)
      rw [List.getElem?_cons_zero, Nat.zero_add, Function.iterate_one]
    | succ i =>
      show (spl_rand_jump root :: seedList n (spl_rand_jump root))[i + 1]? = _
      rw [List.getElem?_cons_succ, ih (spl_rand_jump root) i (by omega),
        ← Function.iterate_succ_apply]

/-- Witness for claim C6: in a 3-unit registry seeded from (1, 2), unit 1
holds the root seed advanced by 2 jumps. -/
theorem spl_random_init_unit_seeds_witness :
    (seedList 3 (1, 2))[1]? = some (spl_rand_jump^[2] (1, 2)) :=
  spl_random_init_unit_seeds (1, 2) 3 1 (by decide)

/-- Claim C7: when get_random_bytes yields the all-zero 128-bit value,
spl_random_init falls back to (jiffies, bitwise complement of jiffies)
when jiffies is nonzero and to the fixed literal seed when jiffies is
zero, and in both fallback cases the resulting root seed is nonzero. -/
theorem spl_random_init_seed_fallback (be : Bool) (jiff : Nat) (hj : jiff < 2 ^ 64) :
    spl_random_init_seed be (0, 0) jiff
        = (if jiff ≠ 0 then (jiff, (2 ^ 64 - 1) ^^^ jiff) else improbableSeed be) ∧
    spl_random_init_seed be (0, 0) jiff ≠ (0, 0) := by
  have hmask : 2 ^ 64 - 1 - jiff = (2 ^ 64 - 1) ^^^ jiff := two_pow_sub_one_sub 64 jiff hj
  have himp : ∀ b : Bool, improbableSeed b ≠ (0, 0) := by decide
  have hunf : spl_random_init_seed be (0, 0) jiff
      = if jiff ≠ 0 then (jiff, 2 ^ 64 - 1 - jiff) else improbableSeed be := by
    simp [spl_random_init_seed]
  constructor
  · rw [hunf]
    by_cases hjz : jiff ≠ 0
    · rw [if_pos hjz, if_pos hjz, hmask]
    · rw [if_neg hjz, if_neg hjz]
  · rw [hunf]
    by_cases hjz : jiff ≠ 0
    · rw [if_pos hjz]
      intro hc
      rw [Prod.mk.injEq] at hc
      exact hjz hc.1
    · rw [if_neg hjz]
      exact himp be

/-- Witness for claim C7 on a little-endian host with jiffies = 5. -/
theorem spl_random_init_seed_fallback_witness :
    (spl_random_init_seed false (0, 0) 5
        = (if (5 : Nat) ≠ 0 then ((5 : Nat), (2 ^ 64 - 1) ^^^ 5) else improbableSeed false) ∧
      spl_random_init_seed false (0, 0) 5 ≠ (0, 0)) :=
  spl_random_init_seed_fallback false 5 (by decide)

/-- Claim C8: from any 64-bit state other than (0, 0), one spl_rand_next
state transition never yields (0, 0), and hence no number of repeated
transitions ever reaches the all-zero state. -/
theorem spl_rand_next_no_zero_state (a b : Nat) (ha : a < 2 ^ 64) (hb : b < 2 ^ 64)
    (h : (a, b) ≠ (0, 0)) :
    nextState (a, b) ≠ (0, 0) ∧ ∀ n : Nat, nextState^[n] (a, b) ≠ (0, 0) :=
  ⟨nextState_ne_zero a b ha h, nextState_iterate_ne_zero a b ha hb h⟩

/-- Witness for claim C8 at the concrete state (3, 5). -/
theorem spl_rand_next_no_zero_state_witness :
    nextState (3, 5) ≠ (0, 0) ∧ ∀ n : Nat, nextState^[n] (3, 5) ≠ (0, 0) :=
  spl_rand_next_no_zero_state 3 5 (by decide) (by decide) (by decide)

/-- Claim C9: spl_rand_jump advances any 64-bit state by exactly 2 ^ 64
spl_rand_next state transitions, and two consecutive jumps advance it by
exactly 2 ^ 65 transitions. -/
theorem spl_rand_jump_two_pow_64 (a b : Nat) (ha : a < 2 ^ 64) (hb : b < 2 ^ 64) :
    spl_rand_jump (a, b) = nextState^[2 ^ 64] (a, b) ∧
    spl_rand_jump (spl_rand_jump (a, b)) = nextState^[2 ^ 65] (a, b) := by
  have h1 := spl_rand_jump_iterate (a, b) ha hb
  obtain ⟨g1, g2⟩ := nextState_iterate_lt (2 ^ 64) (a, b) ha hb
  refine ⟨h1, ?_⟩
  have e : (2 : Nat) ^ 64 + 2 ^ 64 = 2 ^ 65 := by norm_num [pow_succ]
  rw [h1, spl_rand_jump_iterate _ g1 g2, ← Function.iterate_add_apply, e]

/-- Witness for claim C9 at the concrete state (3, 5). -/
theorem spl_rand_jump_two_pow_64_witness :
    spl_rand_jump (3, 5) = nextState^[2 ^ 64] (3, 5) ∧
    spl_rand_jump (spl_rand_jump (3, 5)) = nextState^[2 ^ 65] (3, 5) :=
  spl_rand_jump_two_pow_64 3 5 (by decide) (by decide)

/-- Claim C10: random_get_pseudo_bytes returns 0 on every call, and a
length-0 call emits no bytes and leaves the calling unit state
unchanged. -/
theorem random_get_pseudo_bytes_always_zero (be : Bool) (s : Nat × Nat) (len : Nat) :
    (random_get_pseudo_bytes be s len).2 = 0 ∧
    random_get_pseudo_bytes be s 0 = (([], s), 0) := by
  refine ⟨rfl, ?_⟩
  simp only [random_get_pseudo_bytes, rgpb_fill_zero]
